import Mathlib

/-!
Verification of the menu-voting session engine of `menu-bot`.

The engine lives in `src/menu_voting/models.py` (classes `VotingSession` and
`VotingManager`); the phase transitions it leaves to its caller live in
`src/menu_voting/views.py` (`MenuProposalView.close_proposals`,
`VotingView.close_vote`) with the candidate threshold in
`src/menu_voting/constants.py` (`MIN_MENU_COUNT`).

Python dicts are embedded as insertion-ordered association lists with the
exact dict semantics used by the code: lookup finds the first (and, under
the dict invariant, only) entry for a key, assignment to a present key
updates it in place keeping its position, assignment to an absent key
appends at the end, and deletion removes the entry.  Machine integers are
`Nat` (ids) and `Int` (scores); the code performs no arithmetic that can
overflow a Python int.  The `created_at` timestamp field is omitted: no
operation of the engine reads it.
-/

/-- Lookup in a Python dict: the value stored at `k`, if any.  Under the
dict key-uniqueness invariant at most one entry per key exists; lookup
takes the first. -/
def dlookup {α : Type} [DecidableEq α] {β : Type} : List (α × β) → α → Option β
  | [], _ => none
  | e :: t, k => if e.1 = k then some e.2 else dlookup t k

/-- Python `k in d`: membership test of a key in a dict. -/
def dcontains {α : Type} [DecidableEq α] {β : Type} (l : List (α × β)) (k : α) : Bool :=
  (dlookup l k).isSome

/-- Python `d[k] = v`: update the entry for `k` in place if present
(keeping its position, as Python dicts do), otherwise append it at the
end (Python dicts append new keys in insertion order). -/
def dinsert {α : Type} [DecidableEq α] {β : Type} : List (α × β) → α → β → List (α × β)
  | [], k, v => [(k, v)]
  | e :: t, k, v => if e.1 = k then (k, v) :: t else e :: dinsert t k v

/-- Python `del d[k]`: remove the entry stored at `k`. -/
def derase {α : Type} [DecidableEq α] {β : Type} : List (α × β) → α → List (α × β)
  | [], _ => []
  | e :: t, k => if e.1 = k then t else e :: derase t k

/-- The keys of a dict, in insertion order. -/
def dkeys {α β : Type} (l : List (α × β)) : List α :=
  l.map Prod.fst

/-- Number of entries a dict holds for key `k` (1 at most under the dict
invariant; used to state uniqueness claims). -/
def dcount {α : Type} [DecidableEq α] {β : Type} (l : List (α × β)) (k : α) : Nat :=
  l.countP (fun e => decide (e.1 = k))

/-- One voter's ballot: menu name to integer score, as the Python dict
`{메뉴명: 점수}`. -/
abbrev ScoreMap := List (String × Int)

/-- The session dataclass of `src/menu_voting/models.py` (lines 16-36).
`menus` is the dict `{menu_name: proposer_id}`, `votes` the dict
`{user_id: {menu_name: score}}`. -/
structure VotingSession where
  title : String
  guild_id : Nat
  channel_id : Nat
  creator_id : Nat
  menus : List (String × Nat) := []
  votes : List (Nat × ScoreMap) := []
  voting_started : Bool := false
  voting_closed : Bool := false
  message_id : Option Nat := none
deriving Repr, DecidableEq

/-- The spec's phase enum `{Proposing, Voting, Closed}`.  The code keeps
two booleans instead; `phase` below maps them onto the enum. -/
inductive Phase where
  | Proposing
  | Voting
  | Closed
deriving Repr, DecidableEq

/-- The phase of a session, read off the two flags: `Proposing` until
`voting_started` is set, then `Voting` until `voting_closed` is set,
then `Closed`. -/
def phase (s : VotingSession) : Phase :=
  if s.voting_started then (if s.voting_closed then Phase.Closed else Phase.Voting)
  else Phase.Proposing

/-- Numeric rank of a phase, for stating monotonicity. -/
def phaseRank : Phase → Nat
  | Phase.Proposing => 0
  | Phase.Voting => 1
  | Phase.Closed => 2

/-- `VotingSession.add_menu` (models.py lines 38-54): fails after voting
started or on a duplicate name, otherwise stores `menus[menu_name] =
proposer_id`.  Returns the updated session together with the Python
return value. -/
def add_menu (s : VotingSession) (menu_name : String) (proposer_id : Nat) :
    VotingSession × Bool :=
  if s.voting_started then (s, false)
  else if dcontains s.menus menu_name then (s, false)
  else ({ s with menus := dinsert s.menus menu_name proposer_id }, true)

/-- `VotingSession.remove_menu` (models.py lines 56-76): fails after
voting started, on an absent name, or when a non-admin caller is not the
proposer; otherwise deletes the entry. -/
def remove_menu (s : VotingSession) (menu_name : String) (user_id : Nat)
    (is_admin : Bool) : VotingSession × Bool :=
  if s.voting_started then (s, false)
  else if ¬ dcontains s.menus menu_name then (s, false)
  else if ¬ is_admin ∧ dlookup s.menus menu_name ≠ some user_id then (s, false)
  else ({ s with menus := derase s.menus menu_name }, true)

/-- `VotingSession.submit_vote` (models.py lines 78-92): fails unless
voting is open, otherwise stores `votes[user_id] = votes` (the dict value
itself; the aliasing this causes is modelled separately below). -/
def submit_vote (s : VotingSession) (user_id : Nat) (votes : ScoreMap) :
    VotingSession × Bool :=
  if ¬ s.voting_started ∨ s.voting_closed then (s, false)
  else ({ s with votes := dinsert s.votes user_id votes }, true)

/-- The scores gathered for one menu in `calculate_results` (models.py
lines 106-110): the loop `for user_votes in self.votes.values(): if
menu_name in user_votes: scores.append(user_votes[menu_name])`. -/
def scoresFor (votes : List (Nat × ScoreMap)) (menu_name : String) : List Int :=
  votes.filterMap (fun uv => dlookup uv.2 menu_name)

/-- `menu_scores[menu_name]` (models.py lines 112-116): `sum(scores)`,
`0` when no ballot mentions the menu (Python `sum([]) == 0` coincides
with the explicit else branch). -/
def menuTotal (votes : List (Nat × ScoreMap)) (menu_name : String) : Int :=
  (scoresFor votes menu_name).sum

/-- `menu_min_scores[menu_name]` (models.py lines 112-117): `min(scores)`
when some ballot mentions the menu, `0` otherwise. -/
def menuMinScore (votes : List (Nat × ScoreMap)) (menu_name : String) : Int :=
  match scoresFor votes menu_name with
  | [] => 0
  | x :: xs => xs.foldl min x

/-- The sort key `lambda x: (x[1], x[2])` of a result entry. -/
def resultKey (e : String × Int × Int) : Int × Int :=
  (e.2.1, e.2.2)

/-- Strict lexicographic order on sort keys. -/
def lexLt (a b : Int × Int) : Prop :=
  a.1 < b.1 ∨ (a.1 = b.1 ∧ a.2 < b.2)

instance (a b : Int × Int) : Decidable (lexLt a b) := by
  unfold lexLt; infer_instance

/-- One step of the stable descending insertion modelling Python's
`list.sort(key=..., reverse=True)`: a new element is placed after every
already-placed element whose key is greater than or equal to its own, so
elements with equal keys keep their original relative order, exactly as
Python's stable sort does. -/
def insertDesc (x : String × Int × Int) : List (String × Int × Int) → List (String × Int × Int)
  | [] => [x]
  | y :: t => if lexLt (resultKey y) (resultKey x) then x :: y :: t else y :: insertDesc x t

/-- Python's `results.sort(key=lambda x: (x[1], x[2]), reverse=True)`
(models.py line 124): stable sort, descending in the lexicographic order
of `(total, min)`. -/
def sortDesc (l : List (String × Int × Int)) : List (String × Int × Int) :=
  l.foldl (fun acc x => insertDesc x acc) []

/-- `VotingSession.calculate_results` (models.py lines 94-126): one
`(menu, total, min)` entry per menu in insertion order, sorted descending
by `(total, min)`.  The code first fills the dicts `menu_scores` and
`menu_min_scores` keyed by the same iteration over `self.menus` and then
reads them back in a comprehension over `self.menus`; composing the two
gives the map below. -/
def calculate_results (s : VotingSession) : List (String × Int × Int) :=
  sortDesc (s.menus.map (fun p => (p.1, menuTotal s.votes p.1, menuMinScore s.votes p.1)))

/-- `VotingManager` (models.py lines 129-134): the dict
`{guild_id: VotingSession}`. -/
structure VotingManager where
  sessions : List (Nat × VotingSession) := []
deriving Repr, DecidableEq

/-- `VotingManager.create_session` (models.py lines 136-165): `None` when
a session already exists for the guild, otherwise insert and return a
fresh session. -/
def create_session (mgr : VotingManager) (guild_id channel_id creator_id : Nat)
    (title : String) : VotingManager × Option VotingSession :=
  if dcontains mgr.sessions guild_id then (mgr, none)
  else
    let session : VotingSession :=
      { title := title, guild_id := guild_id, channel_id := channel_id,
        creator_id := creator_id }
    ({ sessions := dinsert mgr.sessions guild_id session }, some session)

/-- `VotingManager.get_session` (models.py lines 167-177). -/
def get_session (mgr : VotingManager) (guild_id : Nat) : Option VotingSession :=
  dlookup mgr.sessions guild_id

/-- `VotingManager.close_session` (models.py lines 179-192). -/
def close_session (mgr : VotingManager) (guild_id : Nat) : VotingManager × Bool :=
  if dcontains mgr.sessions guild_id then
    ({ sessions := derase mgr.sessions guild_id }, true)
  else (mgr, false)

/-- `MIN_MENU_COUNT` from `src/menu_voting/constants.py` line 13. -/
def MIN_MENU_COUNT : Nat := 2

/-- The engine-level transition into the Voting phase: the assignment
`self.session.voting_started = True` that the callers perform directly
(views.py line 130 in `close_proposals`, line 839 in `revote`).  The
engine itself exposes no `begin_voting` method and guards nothing here. -/
def beginVoting (s : VotingSession) : VotingSession :=
  { s with voting_started := true }

/-- The transition into the Closed phase: `self.session.voting_closed =
True` (views.py line 306 in `close_vote`). -/
def closeVoting (s : VotingSession) : VotingSession :=
  { s with voting_closed := true }

/-- `MenuProposalView.close_proposals` (views.py lines 106-160), reduced
to its effect on the session: refuse unless the caller is the creator,
refuse below `MIN_MENU_COUNT` menus, otherwise set `voting_started`.
The Discord replies are abstracted into the boolean. -/
def close_proposals (s : VotingSession) (actor : Nat) : VotingSession × Bool :=
  if actor ≠ s.creator_id then (s, false)
  else if s.menus.length < MIN_MENU_COUNT then (s, false)
  else (beginVoting s, true)

/-- One invocation of a state-changing operation on a session, as the
engine and its views perform them: the three mutators of models.py plus
the two direct flag assignments of views.py. -/
inductive VStep : VotingSession → VotingSession → Prop
  | add (s : VotingSession) (n : String) (p : Nat) : VStep s (add_menu s n p).1
  | remove (s : VotingSession) (n : String) (u : Nat) (a : Bool) :
      VStep s (remove_menu s n u a).1
  | submit (s : VotingSession) (u : Nat) (m : ScoreMap) : VStep s (submit_vote s u m).1
  | beginV (s : VotingSession) : VStep s (beginVoting s)
  | closeV (s : VotingSession) : VStep s (closeVoting s)

/-- A Python object reference to a score dict.  The value-level model
above cannot express that `submit_vote` stores the caller's dict object
itself; the heap model below does. -/
abbrev DictRef := Nat

/-- The part of the Python heap holding score dicts: object reference to
current dict contents. -/
structure DictHeap where
  cells : List (DictRef × ScoreMap)
deriving Repr, DecidableEq

/-- Dereference a score-dict object. -/
def heapGet (h : DictHeap) (r : DictRef) : Option ScoreMap :=
  dlookup h.cells r

/-- A caller mutating its own dict object in place: `d[k] = v` performed
on the object behind `r`. -/
def heapSetKey (h : DictHeap) (r : DictRef) (k : String) (v : Int) : DictHeap :=
  { cells := h.cells.map (fun c => if c.1 = r then (c.1, dinsert c.2 k v) else c) }

/-- The session's `votes` dict in the heap model: user id to the
reference of the score-dict object stored for that user. -/
structure VotingSessionRefs where
  voting_started : Bool := false
  voting_closed : Bool := false
  votesRef : List (Nat × DictRef) := []
deriving Repr, DecidableEq

/-- `VotingSession.submit_vote` in the heap model (models.py lines
78-92): `self.votes[user_id] = votes` stores the caller's dict
*reference*; no copy of any kind is taken. -/
def submit_vote_heap (s : VotingSessionRefs) (user_id : Nat) (votes : DictRef) :
    VotingSessionRefs × Bool :=
  if ¬ s.voting_started ∨ s.voting_closed then (s, false)
  else ({ s with votesRef := dinsert s.votesRef user_id votes }, true)

/-- The ballot contents the session observes for a voter: the dict the
stored reference currently points to. -/
def storedBallot (h : DictHeap) (s : VotingSessionRefs) (user_id : Nat) :
    Option ScoreMap :=
  (dlookup s.votesRef user_id).bind (heapGet h)

/-- Concrete session exercising the zero-score rule: menus `A`, `B`, `C`;
voter 10 scores `{A:5, B:0, C:3}`, voter 20 scores `{A:4, B:2, C:0}`. -/
def zeroVetoSession : VotingSession :=
  { title := "lunch", guild_id := 1, channel_id := 2, creator_id := 3,
    menus := [("A", 1), ("B", 2), ("C", 3)],
    votes := [(10, [("A", 5), ("B", 0), ("C", 3)]),
              (20, [("A", 4), ("B", 2), ("C", 0)])],
    voting_started := true, voting_closed := true }

/-- Concrete session in the Proposing phase holding a single menu. -/
def oneMenuSession : VotingSession :=
  { title := "lunch", guild_id := 1, channel_id := 2, creator_id := 3,
    menus := [("A", 7)] }

/-- Concrete open-voting session with two menus and no ballots yet. -/
def openSession : VotingSession :=
  { title := "lunch", guild_id := 1, channel_id := 2, creator_id := 3,
    menus := [("A", 7), ("B", 8)],
    voting_started := true }

/-- Initial heap for the aliasing scenario: one score-dict object, number
0, holding `{A: 5}`; the caller is about to pass it to `submit_vote`. -/
def heap0 : DictHeap := { cells := [(0, [("A", 5)])] }

/-- The session state of the aliasing scenario after
`submit_vote(10, {A: 5})` succeeded: voting open, reference 0 stored for
voter 10. -/
def sessionAfterSubmit : VotingSessionRefs :=
  (submit_vote_heap { voting_started := true } 10 0).1

/-- The heap after the caller mutates its own dict (`d["A"] = 1`) once
`submit_vote` has returned. -/
def heap1 : DictHeap := heapSetKey heap0 0 "A" 1

/-- Concrete closed session with two menus and two full ballots, no
zero scores: voter 10 gives `{A:5, B:4}`, voter 20 gives `{A:5, B:2}`. -/
def twoMenuVotedSession : VotingSession :=
  { title := "lunch", guild_id := 1, channel_id := 2, creator_id := 3,
    menus := [("A", 7), ("B", 8)],
    votes := [(10, [("A", 5), ("B", 4)]), (20, [("A", 5), ("B", 2)])],
    voting_started := true, voting_closed := true }

/-- A registry holding no session. -/
def emptyManager : VotingManager := {}

section DictLemmas

variable {α β : Type} [DecidableEq α]

theorem dcontains_iff_mem_dkeys (l : List (α × β)) (k : α) :
    dcontains l k = true ↔ k ∈ dkeys l := by
  induction l with
  | nil => simp [dcontains, dlookup, dkeys]
  | cons e t ih =>
    by_cases h : e.1 = k
    · simp [dcontains, dlookup, dkeys, h]
    · simpa [dcontains, dlookup, dkeys, h, Ne.symm h] using ih

theorem dlookup_isSome_of_mem {l : List (α × β)} {p : α × β} (hp : p ∈ l) :
    (dlookup l p.1).isSome = true := by
  induction l with
  | nil => cases hp
  | cons e t ih =>
    by_cases h : e.1 = p.1
    · simp [dlookup, h]
    · rcases List.mem_cons.mp hp with rfl | hp'
      · exact absurd rfl h
      · simpa [dlookup, h] using ih hp'

theorem dlookup_dinsert_self (l : List (α × β)) (k : α) (v : β) :
    dlookup (dinsert l k v) k = some v := by
  induction l with
  | nil => simp [dinsert, dlookup]
  | cons e t ih =>
    by_cases h : e.1 = k
    · simp [dinsert, dlookup, h]
    · simpa [dinsert, dlookup, h] using ih

theorem dlookup_dinsert_ne (l : List (α × β)) (k k' : α) (v : β) (h : k' ≠ k) :
    dlookup (dinsert l k v) k' = dlookup l k' := by
  induction l with
  | nil => simp [dinsert, dlookup, Ne.symm h]
  | cons e t ih =>
    by_cases he : e.1 = k
    · simp [dinsert, dlookup, he, h, Ne.symm h]
    · by_cases he' : e.1 = k'
      · simp [dinsert, dlookup, he, he', h]
      · simpa [dinsert, dlookup, he, he'] using ih

theorem dlookup_eq_none_of_not_mem {l : List (α × β)} {k : α}
    (h : k ∉ dkeys l) : dlookup l k = none := by
  induction l with
  | nil => rfl
  | cons e t ih =>
    simp only [dkeys, List.map_cons, List.mem_cons, not_or] at h
    rw [dlookup, if_neg (fun he => h.1 he.symm)]
    exact ih (by simpa [dkeys] using h.2)

theorem dcount_cons (e : α × β) (t : List (α × β)) (k : α) :
    dcount (e :: t) k = dcount t k + (if e.1 = k then 1 else 0) := by
  simp [dcount, List.countP_cons]

theorem dcount_eq_zero_of_not_mem {l : List (α × β)} {k : α}
    (h : k ∉ dkeys l) : dcount l k = 0 := by
  induction l with
  | nil => simp [dcount]
  | cons e t ih =>
    simp only [dkeys, List.map_cons, List.mem_cons, not_or] at h
    rw [dcount_cons, ih (by simpa [dkeys] using h.2), if_neg (fun he => h.1 he.symm)]

theorem dcount_dinsert_self (l : List (α × β)) (k : α) (v : β)
    (h : dcount l k ≤ 1) : dcount (dinsert l k v) k = 1 := by
  induction l with
  | nil => simp [dinsert, dcount]
  | cons e t ih =>
    by_cases he : e.1 = k
    · rw [dcount_cons, if_pos he] at h
      have ht : dcount t k = 0 := by omega
      simp [dinsert, he, dcount_cons, ht]
    · rw [dcount_cons, if_neg he] at h
      simp [dinsert, he, dcount_cons, ih (by omega)]

theorem derase_sublist (l : List (α × β)) (k : α) : List.Sublist (derase l k) l := by
  induction l with
  | nil => simp [derase]
  | cons e t ih =>
    by_cases h : e.1 = k
    · rw [derase, if_pos h]
      exact List.sublist_cons_self e t
    · rw [derase, if_neg h]
      exact ih.cons₂ e

theorem dlookup_derase_ne (l : List (α × β)) (k m : α) (h : m ≠ k) :
    dlookup (derase l k) m = dlookup l m := by
  induction l with
  | nil => simp [derase]
  | cons e t ih =>
    by_cases he : e.1 = k
    · rw [derase, if_pos he, dlookup, if_neg (fun hm => h (he ▸ hm).symm)]
    · by_cases hm : e.1 = m
      · rw [derase, if_neg he, dlookup, if_pos hm, dlookup, if_pos hm]
      · rw [derase, if_neg he, dlookup, if_neg hm, dlookup, if_neg hm]
        exact ih

theorem dlookup_derase_self (l : List (α × β)) (k : α)
    (h : (dkeys l).Nodup) : dlookup (derase l k) k = none := by
  induction l with
  | nil => rfl
  | cons e t ih =>
    simp only [dkeys, List.map_cons, List.nodup_cons] at h
    by_cases he : e.1 = k
    · rw [derase, if_pos he]
      exact dlookup_eq_none_of_not_mem (by simpa [dkeys, he] using h.1)
    · rw [derase, if_neg he, dlookup, if_neg he]
      exact ih (by simpa [dkeys] using h.2)

theorem mem_dkeys_dinsert {l : List (α × β)} {k m : α} {v : β}
    (h : m ∈ dkeys (dinsert l k v)) : m ∈ dkeys l ∨ m = k := by
  induction l with
  | nil => simpa [dinsert, dkeys, eq_comm] using h
  | cons e t ih =>
    by_cases he : e.1 = k
    · rw [dinsert, if_pos he] at h
      rcases (by simpa [dkeys] using h) with rfl | ht
      · right; rfl
      · left; simp [dkeys, ht]
    · rw [dinsert, if_neg he] at h
      rcases (by simpa [dkeys] using h) with rfl | ht
      · left; simp [dkeys]
      · rcases ih (by simpa [dkeys] using ht) with hl | rfl
        · left; simp [dkeys] at hl ⊢; right; exact hl
        · right; rfl

theorem nodup_dkeys_dinsert (l : List (α × β)) (k : α) (v : β)
    (h : (dkeys l).Nodup) : (dkeys (dinsert l k v)).Nodup := by
  induction l with
  | nil => simp [dinsert, dkeys]
  | cons e t ih =>
    simp only [dkeys, List.map_cons, List.nodup_cons] at h
    by_cases he : e.1 = k
    · rw [dinsert, if_pos he]
      refine List.nodup_cons.mpr ⟨?_, by simpa [dkeys] using h.2⟩
      simpa [dkeys, he] using h.1
    · rw [dinsert, if_neg he]
      simp only [dkeys, List.map_cons, List.nodup_cons]
      refine ⟨?_, by simpa [dkeys] using ih (by simpa [dkeys] using h.2)⟩
      intro hm
      rcases mem_dkeys_dinsert (by simpa [dkeys] using hm) with hl | rfl
      · exact h.1 hl
      · exact he rfl

theorem nodup_dkeys_derase (l : List (α × β)) (k : α)
    (h : (dkeys l).Nodup) : (dkeys (derase l k)).Nodup := by
  have hs : List.Sublist (dkeys (derase l k)) (dkeys l) :=
    List.Sublist.map _ (derase_sublist l k)
  exact h.sublist hs

theorem dcount_le_one_of_nodup {l : List (α × β)} (h : (dkeys l).Nodup) (k : α) :
    dcount l k ≤ 1 := by
  induction l with
  | nil => simp [dcount]
  | cons e t ih =>
    simp only [dkeys, List.map_cons, List.nodup_cons] at h
    rw [dcount_cons]
    by_cases he : e.1 = k
    · have : dcount t k = 0 :=
        dcount_eq_zero_of_not_mem (fun hm => h.1 (he ▸ hm))
      simp [he, this]
    · simpa [he] using ih h.2

theorem dlookup_filter_key (l : List (α × β)) (q : α → Bool) (k : α)
    (hq : q k = true) :
    dlookup (l.filter (fun e => q e.1)) k = dlookup l k := by
  induction l with
  | nil => simp
  | cons e t ih =>
    by_cases he : e.1 = k
    · rw [List.filter_cons, if_pos (by simpa [he] using hq), dlookup, if_pos he,
        dlookup, if_pos he]
    · by_cases hqe : q e.1 = true
      · rw [List.filter_cons, if_pos hqe, dlookup, if_neg he, dlookup, if_neg he]
        exact ih
      · rw [List.filter_cons, if_neg (by simpa using hqe), dlookup, if_neg he]
        exact ih

end DictLemmas

section SortLemmas

theorem lexLt_trans {a b c : Int × Int} (hab : lexLt a b) (hbc : lexLt b c) :
    lexLt a c := by
  rcases hab with h1 | ⟨h1, h2⟩ <;> rcases hbc with h3 | ⟨h3, h4⟩
  · exact Or.inl (h1.trans h3)
  · exact Or.inl (h3 ▸ h1)
  · exact Or.inl (h1 ▸ h3)
  · exact Or.inr ⟨h1.trans h3, h2.trans h4⟩

theorem lexLt_asymm {a b : Int × Int} (h : lexLt a b) : ¬ lexLt b a := by
  rcases h with h1 | ⟨h1, h2⟩ <;> rintro (h3 | ⟨h3, h4⟩) <;> omega

theorem lexLt_trichotomy (a b : Int × Int) : lexLt a b ∨ a = b ∨ lexLt b a := by
  rcases a with ⟨a1, a2⟩
  rcases b with ⟨b1, b2⟩
  unfold lexLt
  rcases lt_trichotomy a1 b1 with h | h | h
  · exact Or.inl (Or.inl h)
  · rcases lt_trichotomy a2 b2 with h' | h' | h'
    · exact Or.inl (Or.inr ⟨h, h'⟩)
    · exact Or.inr (Or.inl (by simp [h, h']))
    · exact Or.inr (Or.inr (Or.inr ⟨h.symm, h'⟩))
  · exact Or.inr (Or.inr (Or.inl h))

/-- Descending comparability of two result entries: the first does not
order strictly below the second. -/
def descGe (a b : String × Int × Int) : Prop :=
  ¬ lexLt (resultKey a) (resultKey b)

theorem perm_insertDesc (x : String × Int × Int) (l : List (String × Int × Int)) :
    List.Perm (insertDesc x l) (x :: l) := by
  induction l with
  | nil => simp [insertDesc]
  | cons y t ih =>
    by_cases h : lexLt (resultKey y) (resultKey x)
    · rw [insertDesc, if_pos h]
    · rw [insertDesc, if_neg h]
      exact (ih.cons y).trans (List.Perm.swap x y t)

theorem pairwise_insertDesc {x : String × Int × Int}
    {l : List (String × Int × Int)} (h : l.Pairwise descGe) :
    (insertDesc x l).Pairwise descGe := by
  induction l with
  | nil => simp [insertDesc, List.pairwise_cons]
  | cons y t ih =>
    rcases List.pairwise_cons.mp h with ⟨hy, ht⟩
    by_cases hlt : lexLt (resultKey y) (resultKey x)
    · rw [insertDesc, if_pos hlt]
      refine List.pairwise_cons.mpr ⟨?_, h⟩
      intro z hz
      rcases List.mem_cons.mp hz with rfl | hz'
      · exact lexLt_asymm hlt
      · intro hxz
        exact hy z hz' (lexLt_trans hlt hxz)
    · rw [insertDesc, if_neg hlt]
      refine List.pairwise_cons.mpr ⟨?_, ih ht⟩
      intro z hz
      rcases List.mem_cons.mp ((perm_insertDesc x t).mem_iff.mp hz) with rfl | hz'
      · exact hlt
      · exact hy z hz'

theorem perm_sortDesc_aux (l acc : List (String × Int × Int)) :
    List.Perm (l.foldl (fun acc x => insertDesc x acc) acc) (acc ++ l) := by
  induction l generalizing acc with
  | nil => simp
  | cons x t ih =>
    rw [List.foldl_cons]
    have h2 := ih (insertDesc x acc)
    have h3 : List.Perm (insertDesc x acc ++ t) (x :: (acc ++ t)) := by
      simpa using (perm_insertDesc x acc).append_right t
    have h4 : List.Perm (x :: (acc ++ t)) (acc ++ x :: t) := List.perm_middle.symm
    exact (h2.trans h3).trans h4

theorem perm_sortDesc (l : List (String × Int × Int)) :
    List.Perm (sortDesc l) l := by
  simpa [sortDesc] using perm_sortDesc_aux l []

theorem pairwise_sortDesc_aux (l acc : List (String × Int × Int))
    (h : acc.Pairwise descGe) :
    (l.foldl (fun acc x => insertDesc x acc) acc).Pairwise descGe := by
  induction l generalizing acc with
  | nil => simpa using h
  | cons x t ih => simpa using ih (insertDesc x acc) (pairwise_insertDesc h)

theorem pairwise_sortDesc (l : List (String × Int × Int)) :
    (sortDesc l).Pairwise descGe := by
  simpa [sortDesc] using pairwise_sortDesc_aux l [] (by simp)

theorem foldl_min_le_start (x : Int) (xs : List Int) :
    xs.foldl min x ≤ x := by
  induction xs generalizing x with
  | nil => simp
  | cons y t ih =>
    calc (y :: t).foldl min x = t.foldl min (min x y) := by simp
      _ ≤ min x y := ih (min x y)
      _ ≤ x := min_le_left x y

theorem foldl_min_le_mem (x : Int) (xs : List Int) (y : Int) (hy : y ∈ xs) :
    xs.foldl min x ≤ y := by
  induction xs generalizing x with
  | nil => cases hy
  | cons z t ih =>
    rcases List.mem_cons.mp hy with rfl | hy'
    · calc (y :: t).foldl min x = t.foldl min (min x y) := by simp
        _ ≤ min x y := foldl_min_le_start _ _
        _ ≤ y := min_le_right x y
    · simpa using ih (min x z) hy'

theorem foldl_min_mem (x : Int) (xs : List Int) :
    xs.foldl min x = x ∨ xs.foldl min x ∈ xs := by
  induction xs generalizing x with
  | nil => simp
  | cons y t ih =>
    rcases ih (min x y) with h | h
    · rcases min_choice x y with hm | hm
      · exact Or.inl (by rw [List.foldl_cons, h, hm])
      · refine Or.inr ?_
        rw [List.foldl_cons, h, hm]
        exact List.mem_cons_self y t
    · refine Or.inr ?_
      rw [List.foldl_cons]
      exact List.mem_cons_of_mem y h

end SortLemmas

section EngineLemmas

theorem phase_proposing_iff (s : VotingSession) :
    phase s = Phase.Proposing ↔ s.voting_started = false := by
  unfold phase
  cases hst : s.voting_started <;> cases hcl : s.voting_closed <;> simp

theorem phase_eq_of_flags {a b : VotingSession}
    (h1 : a.voting_started = b.voting_started)
    (h2 : a.voting_closed = b.voting_closed) : phase a = phase b := by
  unfold phase
  rw [h1, h2]

theorem add_menu_flags (s : VotingSession) (n : String) (p : Nat) :
    (add_menu s n p).1.voting_started = s.voting_started ∧
    (add_menu s n p).1.voting_closed = s.voting_closed := by
  unfold add_menu
  split
  · exact ⟨rfl, rfl⟩
  · split
    · exact ⟨rfl, rfl⟩
    · exact ⟨rfl, rfl⟩

theorem remove_menu_flags (s : VotingSession) (n : String) (u : Nat) (a : Bool) :
    (remove_menu s n u a).1.voting_started = s.voting_started ∧
    (remove_menu s n u a).1.voting_closed = s.voting_closed := by
  unfold remove_menu
  split
  · exact ⟨rfl, rfl⟩
  · split
    · exact ⟨rfl, rfl⟩
    · split
      · exact ⟨rfl, rfl⟩
      · exact ⟨rfl, rfl⟩

theorem submit_vote_flags (s : VotingSession) (u : Nat) (m : ScoreMap) :
    (submit_vote s u m).1.voting_started = s.voting_started ∧
    (submit_vote s u m).1.voting_closed = s.voting_closed := by
  unfold submit_vote
  split
  · exact ⟨rfl, rfl⟩
  · exact ⟨rfl, rfl⟩

theorem add_menu_fails_after_start {s : VotingSession}
    (h : s.voting_started = true) (n : String) (p : Nat) :
    add_menu s n p = (s, false) := by
  simp [add_menu, h]

theorem remove_menu_fails_after_start {s : VotingSession}
    (h : s.voting_started = true) (n : String) (u : Nat) (a : Bool) :
    remove_menu s n u a = (s, false) := by
  simp [remove_menu, h]

theorem submit_vote_open (s : VotingSession) (hst : s.voting_started = true)
    (hcl : s.voting_closed = false) (u : Nat) (m : ScoreMap) :
    submit_vote s u m = ({ s with votes := dinsert s.votes u m }, true) := by
  simp [submit_vote, hst, hcl]

theorem calculate_results_eq (s : VotingSession) :
    calculate_results s =
      sortDesc (s.menus.map
        (fun p => (p.1, menuTotal s.votes p.1, menuMinScore s.votes p.1))) :=
  rfl

theorem menuMinScore_of_nil (votes : List (Nat × ScoreMap)) (m : String)
    (hsc : scoresFor votes m = []) : menuMinScore votes m = 0 := by
  unfold menuMinScore
  rw [hsc]

theorem menuMinScore_mem_le (votes : List (Nat × ScoreMap)) (m : String)
    (x : Int) (xs : List Int) (hsc : scoresFor votes m = x :: xs) :
    menuMinScore votes m ∈ x :: xs ∧ ∀ y ∈ x :: xs, menuMinScore votes m ≤ y := by
  have hmin : menuMinScore votes m = xs.foldl min x := by
    unfold menuMinScore
    rw [hsc]
  rw [hmin]
  constructor
  · rcases foldl_min_mem x xs with h | h
    · rw [h]
      exact List.mem_cons_self x xs
    · exact List.mem_cons_of_mem x h
  · intro y hy
    rcases List.mem_cons.mp hy with rfl | hy'
    · exact foldl_min_le_start y xs
    · exact foldl_min_le_mem x xs y hy'

theorem vstep_monotone {a b : VotingSession} (h : VStep a b) :
    phaseRank (phase a) ≤ phaseRank (phase b) ∧
    (a.voting_started = true → b.voting_started = true) := by
  cases h with
  | add n p =>
    exact ⟨le_of_eq (congrArg phaseRank
        (phase_eq_of_flags (add_menu_flags a n p).1.symm (add_menu_flags a n p).2.symm)),
      fun hs => (add_menu_flags a n p).1.trans hs⟩
  | remove n u adm =>
    exact ⟨le_of_eq (congrArg phaseRank
        (phase_eq_of_flags (remove_menu_flags a n u adm).1.symm
          (remove_menu_flags a n u adm).2.symm)),
      fun hs => (remove_menu_flags a n u adm).1.trans hs⟩
  | submit u m =>
    exact ⟨le_of_eq (congrArg phaseRank
        (phase_eq_of_flags (submit_vote_flags a u m).1.symm (submit_vote_flags a u m).2.symm)),
      fun hs => (submit_vote_flags a u m).1.trans hs⟩
  | beginV =>
    constructor
    · unfold phase beginVoting phaseRank
      cases hst : a.voting_started <;> cases hcl : a.voting_closed <;> simp [hst, hcl]
    · intro _
      rfl
  | closeV =>
    constructor
    · unfold phase closeVoting phaseRank
      cases hst : a.voting_started <;> cases hcl : a.voting_closed <;> simp [hst, hcl]
    · intro hs
      exact hs

end EngineLemmas

/-- C1: refuted by the code.  `VotingSession.calculate_results`
(models.py 94-126) performs no zero-score exclusion at all: on the
session where voter 10 scored `B` with `0` and voter 20 scored `C` with
`0`, both `B` and `C` appear in the single ranked list the function
returns, and no excluded list (and no voter display name) exists
anywhere in the class.  The repository's own tests
(`test_calculate_results_with_zero_scores`) and the sole caller
(`views.py` line 325, which unpacks two return values) demand the
claimed behaviour, so the model code is the slip. -/
theorem C1_zero_scored_menu_still_ranked :
    calculate_results zeroVetoSession = [("A", 9, 4), ("C", 3, 0), ("B", 2, 0)] ∧
    ("B", 2, 0) ∈ calculate_results zeroVetoSession ∧
    ("C", 3, 0) ∈ calculate_results zeroVetoSession := by
  decide

/-- C3: refuted by the code.  `submit_vote` stores the caller's dict
object itself (`self.votes[user_id] = votes`, models.py line 91), taking
no copy: in the heap model, after a successful submission of the dict
behind reference 0 holding `{A: 5}`, the caller's in-place update
`d["A"] = 1` changes the ballot the session observes from `{A: 5}` to
`{A: 1}`.  The repository's own test `test_vote_dictionary_deep_copy`
and the caller's comment at views.py line 416 (submit_vote performs the
deepcopy) demand isolation, so the model code is the slip. -/
theorem C3_submitted_ballot_aliases_caller_map :
    (submit_vote_heap { voting_started := true } 10 0).2 = true ∧
    storedBallot heap0 sessionAfterSubmit 10 = some [("A", 5)] ∧
    storedBallot heap1 sessionAfterSubmit 10 = some [("A", 1)] := by
  decide

/-- C8, counterexample: the engine has no `begin_voting` guard.  The
transition the code performs (`self.session.voting_started = True`,
views.py line 130) succeeds on a Proposing session holding a single
menu and moves it to the Voting phase, contradicting the claim that the
engine refuses the transition below the 2-menu threshold. -/
theorem C8_engine_accepts_below_threshold :
    oneMenuSession.menus.length < MIN_MENU_COUNT ∧
    phase oneMenuSession = Phase.Proposing ∧
    phase (beginVoting oneMenuSession) = Phase.Voting ∧
    (beginVoting oneMenuSession).voting_started = true := by
  decide

/-- C8, amended: only the caller checks the threshold.
`MenuProposalView.close_proposals` (views.py lines 106-130) refuses to
begin voting while the session holds fewer than `MIN_MENU_COUNT = 2`
menus, leaving the session unchanged (hence still in Proposing); the
engine-level transition itself carries no such guard. -/
theorem C8_close_proposals_guards_threshold (s : VotingSession) (actor : Nat)
    (h : s.menus.length < MIN_MENU_COUNT) :
    close_proposals s actor = (s, false) := by
  unfold close_proposals
  by_cases ha : actor = s.creator_id
  · simp [ha, h]
  · simp [ha]

/-- C8, witness: the one-menu session is below the threshold and
`close_proposals` leaves it untouched even for its creator. -/
theorem C8_close_proposals_guards_threshold_witness :
    oneMenuSession.menus.length < MIN_MENU_COUNT ∧
    close_proposals oneMenuSession 3 = (oneMenuSession, false) :=
  ⟨by decide, C8_close_proposals_guards_threshold oneMenuSession 3 (by decide)⟩

/-- C2: confirmed.  `calculate_results` returns exactly one entry per
menu whose total is the sum of the scores the ballots mentioning it
gave, whose min is the least of those scores (both 0 when no ballot
mentions the menu), and the list is sorted descending in the
lexicographic order of `(total, min)`. -/
theorem C2_results_totals_min_sorted (s : VotingSession) :
    List.Perm (calculate_results s)
      (s.menus.map (fun p => (p.1, menuTotal s.votes p.1, menuMinScore s.votes p.1))) ∧
    (∀ e ∈ calculate_results s,
      e.2.1 = (scoresFor s.votes e.1).sum ∧
      (scoresFor s.votes e.1 = [] → e.2.1 = 0 ∧ e.2.2 = 0) ∧
      (scoresFor s.votes e.1 ≠ [] →
        e.2.2 ∈ scoresFor s.votes e.1 ∧ ∀ x ∈ scoresFor s.votes e.1, e.2.2 ≤ x)) ∧
    (calculate_results s).Pairwise
      (fun a b => resultKey b = resultKey a ∨ lexLt (resultKey b) (resultKey a)) := by
  refine ⟨perm_sortDesc _, ?_, ?_⟩
  · intro e he
    have he' : e ∈ s.menus.map
        (fun p => (p.1, menuTotal s.votes p.1, menuMinScore s.votes p.1)) :=
      (perm_sortDesc _).subset he
    rcases List.mem_map.mp he' with ⟨p, hp, rfl⟩
    refine ⟨rfl, ?_, ?_⟩
    · intro h0
      constructor
      · show menuTotal s.votes p.1 = 0
        simp [menuTotal, h0]
      · exact menuMinScore_of_nil s.votes p.1 h0
    · intro hne
      rcases hsc : scoresFor s.votes p.1 with _ | ⟨x, xs⟩
      · exact absurd hsc hne
      · have hm := menuMinScore_mem_le s.votes p.1 x xs hsc
        exact ⟨hm.1, fun y hy => hm.2 y hy⟩
  · rw [calculate_results_eq]
    refine List.Pairwise.imp ?_ (pairwise_sortDesc
      (s.menus.map (fun p => (p.1, menuTotal s.votes p.1, menuMinScore s.votes p.1))))
    intro a b hab
    rcases lexLt_trichotomy (resultKey b) (resultKey a) with h | h | h
    · exact Or.inr h
    · exact Or.inl h
    · exact absurd h hab

/-- C2, witness: on the two-menu session, entry `("B", 6, 2)` is in the
results and its min 2 is one of the scores ballots gave `B`. -/
theorem C2_results_totals_min_sorted_witness :
    scoresFor twoMenuVotedSession.votes "B" ≠ [] ∧
    (2 : Int) ∈ scoresFor twoMenuVotedSession.votes "B" ∧
    ("A", 10, 5) ∈ calculate_results twoMenuVotedSession := by
  refine ⟨by decide, ?_, by decide⟩
  have h := (C2_results_totals_min_sorted twoMenuVotedSession).2.1 ("B", 6, 2) (by decide)
  exact (h.2.2 (by decide)).1

/-- C4: confirmed.  While voting is open, two successive submissions by
the same voter both succeed, leave exactly one ballot for that voter,
and that ballot is the second map, with every other voter's ballot
untouched. -/
theorem C4_resubmission_overwrites (s : VotingSession) (uid : Nat) (m1 m2 : ScoreMap)
    (hst : s.voting_started = true) (hcl : s.voting_closed = false)
    (hnd : (dkeys s.votes).Nodup) :
    (submit_vote s uid m1).2 = true ∧
    (submit_vote (submit_vote s uid m1).1 uid m2).2 = true ∧
    dlookup (submit_vote (submit_vote s uid m1).1 uid m2).1.votes uid = some m2 ∧
    dcount (submit_vote (submit_vote s uid m1).1 uid m2).1.votes uid = 1 ∧
    (∀ v, v ≠ uid →
      dlookup (submit_vote (submit_vote s uid m1).1 uid m2).1.votes v =
        dlookup s.votes v) := by
  have h1 : submit_vote s uid m1 = ({ s with votes := dinsert s.votes uid m1 }, true) :=
    submit_vote_open s hst hcl uid m1
  have h2 : submit_vote ({ s with votes := dinsert s.votes uid m1 } : VotingSession) uid m2 =
      ({ s with votes := dinsert (dinsert s.votes uid m1) uid m2 }, true) :=
    submit_vote_open ({ s with votes := dinsert s.votes uid m1 } : VotingSession) hst hcl uid m2
  rw [h1, h2]
  refine ⟨rfl, rfl, dlookup_dinsert_self _ _ _, ?_, ?_⟩
  · exact dcount_dinsert_self _ _ _
      (le_of_eq (dcount_dinsert_self _ _ _ (dcount_le_one_of_nodup hnd uid)))
  · intro v hv
    rw [dlookup_dinsert_ne _ _ _ _ hv, dlookup_dinsert_ne _ _ _ _ hv]

/-- C4, witness: on the open two-menu session, resubmission by voter 10
leaves exactly the second ballot. -/
theorem C4_resubmission_overwrites_witness :
    dlookup (submit_vote (submit_vote openSession 10 [("A", 1)]).1 10
        [("A", 5), ("B", 3)]).1.votes 10 = some [("A", 5), ("B", 3)] ∧
    dcount (submit_vote (submit_vote openSession 10 [("A", 1)]).1 10
        [("A", 5), ("B", 3)]).1.votes 10 = 1 :=
  ⟨(C4_resubmission_overwrites openSession 10 [("A", 1)] [("A", 5), ("B", 3)]
      rfl rfl (by decide)).2.2.1,
   (C4_resubmission_overwrites openSession 10 [("A", 1)] [("A", 5), ("B", 3)]
      rfl rfl (by decide)).2.2.2.1⟩

/-- C5: confirmed.  The registry keys sessions by community id, so under
the dict invariant it holds at most one session per community;
`create_session` returns `None` (it is a total function, so it throws
nothing) and leaves the registry untouched when a session already
exists, and otherwise inserts and returns a fresh Proposing-phase
session (no menus, no ballots, neither flag set); both `create_session`
and `close_session` preserve the invariant. -/
theorem C5_registry_single_session (mgr : VotingManager) (gid ch cr : Nat)
    (title : String) (hnd : (dkeys mgr.sessions).Nodup) :
    (∀ g, dcount mgr.sessions g ≤ 1) ∧
    (dcontains mgr.sessions gid = true →
      create_session mgr gid ch cr title = (mgr, none)) ∧
    (dcontains mgr.sessions gid = false →
      ∃ sess, create_session mgr gid ch cr title =
          ({ sessions := dinsert mgr.sessions gid sess }, some sess) ∧
        sess.title = title ∧ sess.guild_id = gid ∧ sess.channel_id = ch ∧
        sess.creator_id = cr ∧ sess.menus = [] ∧ sess.votes = [] ∧
        sess.voting_started = false ∧ sess.voting_closed = false ∧
        phase sess = Phase.Proposing ∧
        get_session (create_session mgr gid ch cr title).1 gid = some sess) ∧
    (dkeys (create_session mgr gid ch cr title).1.sessions).Nodup ∧
    (dkeys (close_session mgr gid).1.sessions).Nodup := by
  refine ⟨fun g => dcount_le_one_of_nodup hnd g, ?_, ?_, ?_, ?_⟩
  · intro h
    simp [create_session, h]
  · intro h
    refine ⟨{ title := title, guild_id := gid, channel_id := ch, creator_id := cr },
      ?_, rfl, rfl, rfl, rfl, rfl, rfl, rfl, rfl, rfl, ?_⟩
    · simp [create_session, h]
    · simp [get_session, create_session, h, dlookup_dinsert_self]
  · by_cases h : dcontains mgr.sessions gid
    · simpa [create_session, h] using hnd
    · simpa [create_session, h] using
        nodup_dkeys_dinsert mgr.sessions gid _ hnd
  · by_cases h : dcontains mgr.sessions gid
    · simpa [close_session, h] using nodup_dkeys_derase mgr.sessions gid hnd
    · simpa [close_session, h] using hnd

/-- C5, witness: the empty registry satisfies the invariant and a first
`create_session` on it does not fail. -/
theorem C5_registry_single_session_witness :
    dcount emptyManager.sessions 1 ≤ 1 ∧
    create_session emptyManager 1 2 3 "t" ≠ (emptyManager, none) :=
  ⟨(C5_registry_single_session emptyManager 1 2 3 "t" (by decide)).1 1, by decide⟩

/-- C6: confirmed.  Along any sequence of engine operations (the three
mutators plus the two flag assignments the views perform) the phase
rank never decreases, and once `voting_started` is set every later
`add_menu` and `remove_menu` returns `False` and leaves the session
unchanged. -/
theorem C6_phase_monotone_menus_frozen (s s' : VotingSession)
    (h : Relation.ReflTransGen VStep s s') :
    phaseRank (phase s) ≤ phaseRank (phase s') ∧
    (s.voting_started = true →
      s'.voting_started = true ∧
      (∀ n p, add_menu s' n p = (s', false)) ∧
      (∀ n u a, remove_menu s' n u a = (s', false))) := by
  induction h with
  | refl =>
    exact ⟨le_refl _, fun hs =>
      ⟨hs, fun n p => add_menu_fails_after_start hs n p,
        fun n u a => remove_menu_fails_after_start hs n u a⟩⟩
  | tail _ hbc ih =>
    refine ⟨ih.1.trans (vstep_monotone hbc).1, ?_⟩
    intro hs
    have hc := (vstep_monotone hbc).2 (ih.2 hs).1
    exact ⟨hc, fun n p => add_menu_fails_after_start hc n p,
      fun n u a => remove_menu_fails_after_start hc n u a⟩

/-- C6, witness: after the `close_vote` flag assignment on the open
session, voting is still marked started, the phase advanced, and both
candidate mutators are rejected. -/
theorem C6_phase_monotone_menus_frozen_witness :
    phaseRank (phase openSession) ≤ phaseRank (phase (closeVoting openSession)) ∧
    (closeVoting openSession).voting_started = true ∧
    add_menu (closeVoting openSession) "C" 9 = (closeVoting openSession, false) ∧
    remove_menu (closeVoting openSession) "A" 7 false = (closeVoting openSession, false) := by
  have h := C6_phase_monotone_menus_frozen openSession (closeVoting openSession)
    (Relation.ReflTransGen.single (VStep.closeV openSession))
  exact ⟨h.1, (h.2 rfl).1, (h.2 rfl).2.1 "C" 9, (h.2 rfl).2.2 "A" 7 false⟩

/-- C7: confirmed.  `remove_menu` succeeds exactly when the session is
still Proposing, the name is present, and the caller is the proposer or
is flagged admin; on failure the session is unchanged, and on success
exactly that name is deleted from the menu dict while ballots and phase
stay as they were. -/
theorem C7_remove_menu_characterisation (s : VotingSession) (n : String)
    (u : Nat) (a : Bool) (hnd : (dkeys s.menus).Nodup) :
    ((remove_menu s n u a).2 = true ↔
      (phase s = Phase.Proposing ∧ dcontains s.menus n = true ∧
        (dlookup s.menus n = some u ∨ a = true))) ∧
    ((remove_menu s n u a).2 = false → (remove_menu s n u a).1 = s) ∧
    ((remove_menu s n u a).2 = true →
      (remove_menu s n u a).1.menus = derase s.menus n ∧
      dlookup (remove_menu s n u a).1.menus n = none ∧
      (∀ m, m ≠ n → dlookup (remove_menu s n u a).1.menus m = dlookup s.menus m) ∧
      (remove_menu s n u a).1.votes = s.votes ∧
      phase (remove_menu s n u a).1 = phase s) := by
  cases hst : s.voting_started with
  | true =>
    rw [remove_menu_fails_after_start hst n u a]
    refine ⟨?_, fun _ => rfl, fun ht => absurd ht (by simp)⟩
    rw [phase_proposing_iff]
    simp [hst]
  | false =>
    by_cases hc : dcontains s.menus n = true
    · by_cases hauth : ¬ a = true ∧ dlookup s.menus n ≠ some u
      · have hr : remove_menu s n u a = (s, false) := by
          unfold remove_menu
          rw [if_neg (by simp [hst]), if_neg (not_not_intro hc), if_pos hauth]
        rw [hr]
        refine ⟨?_, fun _ => rfl, fun ht => absurd ht (by simp)⟩
        constructor
        · intro ht
          exact absurd ht (by simp)
        · rintro ⟨_, _, hor | hor⟩
          · exact absurd hor hauth.2
          · exact absurd hor hauth.1
      · have hr : remove_menu s n u a = ({ s with menus := derase s.menus n }, true) := by
          unfold remove_menu
          rw [if_neg (by simp [hst]), if_neg (not_not_intro hc), if_neg hauth]
        rw [hr]
        refine ⟨?_, fun hf => absurd hf (by simp), fun _ => ?_⟩
        · constructor
          · intro _
            refine ⟨(phase_proposing_iff s).mpr hst, hc, ?_⟩
            by_cases ha : a = true
            · exact Or.inr ha
            · rcases Decidable.em (dlookup s.menus n = some u) with he | he
              · exact Or.inl he
              · exact absurd ⟨ha, he⟩ hauth
          · intro _
            rfl
        · refine ⟨rfl, dlookup_derase_self s.menus n hnd,
            fun m hm => dlookup_derase_ne s.menus n m hm, rfl, ?_⟩
          exact phase_eq_of_flags rfl rfl
    · have hr : remove_menu s n u a = (s, false) := by
        unfold remove_menu
        rw [if_neg (by simp [hst]), if_pos hc]
      rw [hr]
      refine ⟨?_, fun _ => rfl, fun ht => absurd ht (by simp)⟩
      constructor
      · intro ht
        exact absurd ht (by simp)
      · rintro ⟨_, hcc, _⟩
        exact absurd hcc hc

/-- C7, witness: the proposer removes the single menu of a Proposing
session; the lookup afterwards finds nothing. -/
theorem C7_remove_menu_characterisation_witness :
    (remove_menu oneMenuSession "A" 7 false).2 = true ∧
    dlookup (remove_menu oneMenuSession "A" 7 false).1.menus "A" = none := by
  have h := C7_remove_menu_characterisation oneMenuSession "A" 7 false (by decide)
  have ht : (remove_menu oneMenuSession "A" 7 false).2 = true :=
    h.1.mpr ⟨by decide, by decide, Or.inl (by decide)⟩
  exact ⟨ht, (h.2.2 ht).2.1⟩

/-- C10: confirmed.  The results list has exactly one entry per menu in
the candidate dict (in particular its length is the number of menus),
and score entries of stored ballots whose key is not a current menu
contribute nothing: dropping all of them changes no result. -/
theorem C10_results_exactly_menus (s : VotingSession) :
    (calculate_results s).length = s.menus.length ∧
    List.Perm (calculate_results s)
      (s.menus.map (fun p => (p.1, menuTotal s.votes p.1, menuMinScore s.votes p.1))) ∧
    calculate_results
      { s with votes := (s.votes.map (fun uv => (uv.1, uv.2.filter (fun e => dcontains s.menus e.1)))) } =
      calculate_results s := by
  refine ⟨((perm_sortDesc _).length_eq).trans (List.length_map _ _), perm_sortDesc _, ?_⟩
  rw [calculate_results_eq, calculate_results_eq]
  congr 1
  refine List.map_congr_left ?_
  intro p hp
  have hm : dcontains s.menus p.1 = true := dlookup_isSome_of_mem hp
  have hs : scoresFor (s.votes.map
      (fun uv => (uv.1, uv.2.filter (fun e => dcontains s.menus e.1)))) p.1 =
      scoresFor s.votes p.1 := by
    unfold scoresFor
    rw [List.filterMap_map]
    congr 1
    funext uv
    exact dlookup_filter_key uv.2 (fun k => dcontains s.menus k) p.1 hm
  show (p.1, menuTotal _ p.1, menuMinScore _ p.1) =
    (p.1, menuTotal s.votes p.1, menuMinScore s.votes p.1)
  unfold menuTotal menuMinScore
  rw [hs]

/-- C10, witness: on the zero-veto session the results have one entry
per menu. -/
theorem C10_results_exactly_menus_witness :
    (calculate_results zeroVetoSession).length = zeroVetoSession.menus.length :=
  (C10_results_exactly_menus zeroVetoSession).1
